import Mathlib

/-!
Verification of the fissile packages-layer image builder
(`builder.PackagesImageBuilder`): image-name computation, layer-base
determination, package deduplication and the docker build-context populator.
-/

set_option maxRecDepth 100000

namespace FissileBuilder

/-! ### Byte-level primitives

Models of Go's `[]byte(string)` conversion (UTF-8), `crypto/sha1` and
`encoding/hex.EncodeToString`. -/

/-- UTF-8 encoding of a single character, as Go's `[]byte(string)` produces. -/
def utf8Char (c : Char) : List Nat :=
  let n := c.toNat
  if n < 128 then [n]
  else if n < 2048 then [192 + n / 64, 128 + n % 64]
  else if n < 65536 then [224 + n / 4096, 128 + n / 64 % 64, 128 + n % 64]
  else [240 + n / 262144, 128 + n / 4096 % 64, 128 + n / 64 % 64, 128 + n % 64]

/-- The UTF-8 bytes of a string, as Go's `[]byte(s)`. -/
def strBytes (s : String) : List Nat := s.data.flatMap utf8Char

/-- Rotate a 32-bit word left by `s` bits. -/
def rotl (s x : Nat) : Nat :=
  (((x % 4294967296) <<< s) + ((x % 4294967296) >>> (32 - s))) % 4294967296

/-- Big-endian byte representation of `v`, `n` bytes wide. -/
def beBytes : Nat → Nat → List Nat
  | 0, _ => []
  | n + 1, v => beBytes n (v / 256) ++ [v % 256]

/-- Group bytes into big-endian 32-bit words. -/
def bytesToWords : List Nat → List Nat
  | a :: b :: c :: d :: rest => (((a * 256 + b) * 256 + c) * 256 + d) :: bytesToWords rest
  | _ => []

/-- SHA-1 round constant for round `t`. -/
def sha1K (t : Nat) : Nat :=
  if t < 20 then 1518500249
  else if t < 40 then 1859775393
  else if t < 60 then 2400959708
  else 3395469782

/-- SHA-1 round function for round `t`. -/
def sha1F (t b c d : Nat) : Nat :=
  if t < 20 then (b &&& c) ||| ((b ^^^ 4294967295) &&& d)
  else if t < 40 then b ^^^ c ^^^ d
  else if t < 60 then (b &&& c) ||| (b &&& d) ||| (c &&& d)
  else b ^^^ c ^^^ d

/-- `l.getD n 0`: word lookup in the message schedule. -/
def nthWord (l : List Nat) (n : Nat) : Nat := l.getD n 0

/-- Extend the 16-word schedule by `n` further words. -/
def sha1Extend : Nat → List Nat → List Nat
  | 0, w => w
  | n + 1, w =>
    let t := w.length
    sha1Extend n (w ++ [rotl 1 (nthWord w (t - 3) ^^^ nthWord w (t - 8) ^^^
      nthWord w (t - 14) ^^^ nthWord w (t - 16))])

/-- The 80 SHA-1 rounds over the scheduled words, paired with their indices. -/
def sha1Rounds : List (Nat × Nat) → Nat × Nat × Nat × Nat × Nat → Nat × Nat × Nat × Nat × Nat
  | [], st => st
  | (t, wt) :: rest, (a, b, c, d, e) =>
    let temp := (rotl 5 a + sha1F t b c d + e + wt + sha1K t) % 4294967296
    sha1Rounds rest (temp, a, rotl 30 b, c, d)

/-- Compress one 64-byte block into the running hash state. -/
def sha1Compress (h : List Nat) (block : List Nat) : List Nat :=
  let w := sha1Extend 64 (bytesToWords block)
  let h0 := h.getD 0 0
  let h1 := h.getD 1 0
  let h2 := h.getD 2 0
  let h3 := h.getD 3 0
  let h4 := h.getD 4 0
  match sha1Rounds ((List.range 80).zip w) (h0, h1, h2, h3, h4) with
  | (a, b, c, d, e) =>
    [(h0 + a) % 4294967296, (h1 + b) % 4294967296, (h2 + c) % 4294967296,
     (h3 + d) % 4294967296, (h4 + e) % 4294967296]

/-- SHA-1 padding: `0x80`, zeros to 56 mod 64, then the 64-bit bit length. -/
def sha1Pad (msg : List Nat) : List Nat :=
  let z := (56 + 64 - (msg.length + 1) % 64) % 64
  msg ++ [128] ++ List.replicate z 0 ++ beBytes 8 (msg.length * 8)

/-- Split into 64-byte blocks, fueled by the block count. -/
def chunks64 : Nat → List Nat → List (List Nat)
  | 0, _ => []
  | n + 1, l => l.take 64 :: chunks64 n (l.drop 64)

/-- The SHA-1 digest (20 bytes) of a byte string, as Go's `crypto/sha1`. -/
def sha1Bytes (msg : List Nat) : List Nat :=
  let padded := sha1Pad msg
  let hs := (chunks64 (padded.length / 64) padded).foldl sha1Compress
    [1732584193, 4023233417, 2562383102, 271733878, 3285377520]
  hs.flatMap (beBytes 4)

/-- Lower-case hex digit. -/
def hexDigit (n : Nat) : Char := if n < 10 then Char.ofNat (48 + n) else Char.ofNat (87 + n)

/-- Hex encoding of a byte list, as Go's `encoding/hex.EncodeToString`. -/
def hexEncode (bs : List Nat) : String :=
  String.mk (bs.flatMap (fun b => [hexDigit (b / 16), hexDigit (b % 16)]))

/-- Hex-encoded SHA-1 digest of a byte string. -/
def sha1Hex (msg : List Nat) : String := hexEncode (sha1Bytes msg)

example : sha1Hex (strBytes "abc") = "a9993e364706816aba3e25717850c26c9cd0d89d" := rfl

/-! ### Data model

`model.Package` carries the three attributes the builder reads: the
fingerprint, the name and the compiled-artifact content hash (`pkg.SHA1`).
Roles hold jobs, jobs reference packages. -/

structure Package where
  fingerprint : String
  name : String
  sha1 : String
deriving DecidableEq

structure RoleJob where
  packages : List Package
deriving DecidableEq

structure Role where
  roleJobs : List RoleJob
deriving DecidableEq

/-- The fields of `builder.PackagesImageBuilder` that the modelled operations
read (`targetPath`, `compiledPackagesPath` and the UI handle only feed I/O
that is abstracted into parameters below). -/
structure PackagesImageBuilder where
  repository : String
  stemcellImageID : String
  stemcellImageName : String
  fissileVersion : String
deriving DecidableEq

def fissileVersionLabel (p : PackagesImageBuilder) : String :=
  "version.generator.fissile=" ++ p.fissileVersion.replace "+" "_"

/-- Modelled from the spec: `util.SanitizeDockerName` is not under `src/`.
The spec only says the computed name and tag are "sanitized" docker
references; we model sanitization as lower-casing with every character
outside `a-z`, `0-9`, `_`, `.`, `-` replaced by a dash — the identity on the
names and hex tags at issue. -/
def sanitizeDockerName (s : String) : String :=
  String.mk (s.data.map (fun c =>
    let c := c.toLower
    if c.isAlphanum || c == '_' || c == '.' || c == '-' then c else '-'))

/-- One step of Go's `pkgMap[pkg.Fingerprint] = pkg` on an association-list
model of the map: overwrite the binding when the key is present, otherwise
add a new binding. -/
def pkgMapInsert (m : List (String × Package)) (pkg : Package) : List (String × Package) :=
  if m.any (fun kv => kv.1 == pkg.fingerprint) then
    m.map (fun kv => if kv.1 == pkg.fingerprint then (kv.1, pkg) else kv)
  else m ++ [(pkg.fingerprint, pkg)]

/-- The `pkgMap` built by iterating over packages (later bindings win). -/
def buildPkgMap (packages : List Package) : List (String × Package) :=
  packages.foldl pkgMapInsert []

/-- All package references in role/job/package iteration order. -/
def rolePackages (roles : List Role) : List Package :=
  roles.flatMap (fun r => r.roleJobs.flatMap (fun j => j.packages))

def pkgLE (a b : Package) : Prop := a.fingerprint ≤ b.fingerprint

instance : DecidableRel pkgLE :=
  fun a b => inferInstanceAs (Decidable (a.fingerprint ≤ b.fingerprint))

instance : IsTotal Package pkgLE := ⟨fun a b => le_total a.fingerprint b.fingerprint⟩

instance : IsTrans Package pkgLE := ⟨fun _ _ _ h1 h2 => le_trans h1 h2⟩

/-- Modelled from the spec: the `sort.Sort` order of `model.Packages` is not
under `src/`; the spec says "the package list is sorted by fingerprint
before hashing", so packages are ordered by fingerprint. -/
def sortPackages (l : List Package) : List Package := List.insertionSort pkgLE l

/-- The bytes fed to the SHA-1 hasher: `"<version>:<stemcellImageID>"`
followed, per package, by `strings.Join([""; fp; name; sha1], "\000")`. -/
def digestInput (p : PackagesImageBuilder) (pkgs : List Package) : List Nat :=
  strBytes (p.fissileVersion ++ ":" ++ p.stemcellImageID) ++
    pkgs.flatMap (fun pkg =>
      strBytes ("\x00" ++ pkg.fingerprint ++ "\x00" ++ pkg.name ++ "\x00" ++ pkg.sha1))

/-- The packages contributing to the digest: one per fingerprint (Go map
semantics, the binding written last wins), then sorted. -/
def digestPackages (packages : List Package) : List Package :=
  sortPackages ((buildPkgMap packages).map Prod.snd)

/-- `GetPackagesLayerImageName` from `src/unnamed/part_000` (the Go version
also returns an always-`nil` error). -/
def GetPackagesLayerImageName (p : PackagesImageBuilder) (roles : List Role) : String :=
  let pkgs := digestPackages (rolePackages roles)
  let imageName := sanitizeDockerName (p.repository ++ "-role-packages")
  let imageTag := sanitizeDockerName (sha1Hex (digestInput p pkgs))
  imageName ++ ":" ++ imageTag

/-- Variant of the image-name computation applied to an explicit package
list; `GetPackagesLayerImageName p roles` is this at `rolePackages roles`. -/
def imageNameFromPackages (p : PackagesImageBuilder) (packages : List Package) : String :=
  sanitizeDockerName (p.repository ++ "-role-packages") ++ ":" ++
    sanitizeDockerName (sha1Hex (digestInput p (digestPackages packages)))

/-- One step of the populator's dedup loop: skip a package whose fingerprint
was already found, otherwise record it. -/
def collectStep : List String × List Package → Package → List String × List Package
  | (found, acc), pkg =>
    if pkg.fingerprint ∈ found then (found, acc)
    else (found ++ [pkg.fingerprint], acc ++ [pkg])

/-- The "Collect compiled packages" loop of `NewDockerPopulator`:
deduplication by fingerprint, first occurrence wins. -/
def collectPackages (roles : List Role) : List Package :=
  ((rolePackages roles).foldl collectStep ([], [])).2

/-- Recursive characterization of the populator's dedup fold: keep a package
unless its fingerprint was already seen. -/
def dedupFirst : List Package → List String → List Package
  | [], _ => []
  | q :: qs, found =>
    if q.fingerprint ∈ found then dedupFirst qs found
    else q :: dedupFirst qs (found ++ [q.fingerprint])

/-- The keys of the association-list model of a Go map are distinct. -/
def KeysNodup (m : List (String × Package)) : Prop := (m.map Prod.fst).Nodup

/-- Every binding of `pkgMap`-style maps keys a package by its own
fingerprint. -/
def FpConsistent (m : List (String × Package)) : Prop :=
  ∀ kv ∈ m, kv.2.fingerprint = kv.1

/-- Packages with equal fingerprints are equal — the upstream fingerprinting
guarantee the spec states ("equal fingerprints imply interchangeable
content"). -/
def FpInjective (l : List Package) : Prop :=
  ∀ a ∈ l, ∀ b ∈ l, a.fingerprint = b.fingerprint → a = b

instance (l : List Package) : Decidable (FpInjective l) :=
  inferInstanceAs (Decidable (∀ a ∈ l, ∀ b ∈ l, a.fingerprint = b.fingerprint → a = b))

/-- Strict fingerprint order on packages. -/
def pkgLT (a b : Package) : Prop := a.fingerprint < b.fingerprint

instance : IsAntisymm Package pkgLT :=
  ⟨fun _ _ h1 h2 => absurd h2 (lt_asymm h1)⟩

/-- Go's `strings.Split(label, ".")`: split the character list on `'.'`.
(Lean's own `String.splitOn` is equivalent for this separator but does not
reduce in the kernel, so the list-level split is used.) -/
def splitOnDot (s : String) : List String :=
  (s.data.splitOn '.').map (fun cs => String.mk cs)

/-- The label shape that `determinePackagesLayerBaseImage` acts on: exactly
two dot-separated parts, the first being `"fingerprint"`. -/
def isFingerprintLabel (label : String) : Bool :=
  match splitOnDot label with
  | [a, _] => a == "fingerprint"
  | _ => false

/-- Processing one found label: split on `"."`; only two-part labels whose
first part is `"fingerprint"` delete the named key from the map. -/
def removeCoveredLabel (m : List (String × Package)) (label : String) : List (String × Package) :=
  match splitOnDot label with
  | [a, b] => if a == "fingerprint" then m.filter (fun kv => kv.1 != b) else m
  | _ => m

/-- The residual computation of `determinePackagesLayerBaseImage`: build the
`remainingPackages` map from the requested packages, delete every key whose
fingerprint label was found, return the remaining values. -/
def residualPackages (packages : List Package) (foundLabels : List String) : List Package :=
  (foundLabels.foldl removeCoveredLabel (buildPkgMap packages)).map Prod.snd

/-- `determinePackagesLayerBaseImage`, parameterized by the external catalog
lookup `docker.FindBestImageWithLabels` (an arbitrary function, so theorems
quantify over every result the lookup may return) and by the test-only
global `baseImageOverride` (empty in production). -/
def determinePackagesLayerBaseImage
    (findBest : String → List String → List String → Except String (String × List String))
    (baseImageOverride : String) (p : PackagesImageBuilder) (packages : List Package) :
    Except String (String × List Package) :=
  match findBest (if baseImageOverride != "" then baseImageOverride else p.stemcellImageName)
      (packages.map (fun pkg => "fingerprint." ++ pkg.fingerprint))
      [fissileVersionLabel p] with
  | .error e => .error e
  | .ok (matchedImage, foundLabels) => .ok (matchedImage, residualPackages packages foundLabels)

/-- An image in the external catalog: a name and its labels. -/
structure CatalogImage where
  imageName : String
  labels : List String
deriving DecidableEq

/-- Pick the candidate covering the most labels; `none` when no candidate
covers any label at all. -/
def bestCandidate : List (String × List String) → Option (String × List String) →
    Option (String × List String)
  | [], best => best
  | cur :: rest, best =>
    bestCandidate rest (match best with
      | none => if 0 < cur.2.length then some cur else none
      | some b => if b.2.length < cur.2.length then some cur else best)

/-- Modelled from the spec: `docker.FindBestImageWithLabels` is not under
`src/`. Per the spec it finds "the most specific existing image covering a
subset" of the candidate labels among images carrying all mandatory labels;
when no image covers any candidate label it yields the base name itself with
no covered labels ("Zero requested packages yields the stemcell itself as
base and an empty residual"). -/
def findBestImageWithLabels (catalog : List CatalogImage) (baseName : String)
    (candidateLabels mandatoryLabels : List String) :
    Except String (String × List String) :=
  match bestCandidate
      (((catalog.filter (fun img => mandatoryLabels.all (fun l => img.labels.contains l))).map
        (fun img => (img.imageName, img.labels.filter (fun l => candidateLabels.contains l)))))
      none with
  | some (img, covered) => .ok (img, covered)
  | none => .ok (baseName, [])

/-! ### The tar stream -/

/-- One entry of the produced tar stream. Type flags as in Go `archive/tar`:
`48` (`'0'`) regular, `53` (`'5'`) directory, `50` (`'2'`) symlink; `0` is
the zero `tar.Header.Typeflag` (treated as regular). -/
structure TarEntry where
  name : String
  mode : Nat
  typeflag : Nat
  size : Nat
  content : List Nat
  linkname : String
deriving DecidableEq

/-- Modelled from the spec: `util.WriteToTarStream` is not under `src/`; the
spec says each call writes one entry (the given header) whose payload is the
given bytes, so the entry's size is the payload length. -/
def writeToTarStream (content : List Nat) (name : String) (mode : Nat) (typeflag : Nat) :
    TarEntry :=
  { name := name, mode := mode, typeflag := typeflag, size := content.length,
    content := content, linkname := "" }

/-- A filesystem subtree as seen by `filepath.Walk`: regular files with
permission bits and bytes, directories with named children in
directory-listing order, symlinks with their target. -/
inductive FsEntry where
  | file (mode : Nat) (content : List Nat)
  | dir (mode : Nat) (children : List (String × FsEntry))
  | symlink (mode : Nat) (target : String)

def joinPath (components : List String) : String := String.intercalate "/" components

/-- The tar header `tarWalker.walk` emits for one node: mode, size and type
from the node's file info (`tar.FileInfoHeader`), the symlink target from
`os.Readlink`, the name from the rewritten prefix joined with the relative
path, and regular-file bytes copied verbatim (`io.CopyN` of `info.Size()`
bytes). -/
def tarHeaderFor (name : String) (e : FsEntry) : TarEntry :=
  match e with
  | .file mode content =>
    { name := name, mode := mode, typeflag := 48, size := content.length,
      content := content, linkname := "" }
  | .dir mode _ =>
    { name := name, mode := mode, typeflag := 53, size := 0, content := [], linkname := "" }
  | .symlink mode target =>
    { name := name, mode := mode, typeflag := 50, size := 0, content := [], linkname := target }

mutual

/-- `filepath.Walk(walker.root, walker.walk)`: emit the node's own entry,
then walk the children of a directory; `pre` is the tar prefix joined with
the relative path walked so far. -/
def walkEntry (pre : List String) (e : FsEntry) : List TarEntry :=
  tarHeaderFor (joinPath pre) e ::
    (match e with
     | .dir _ children => walkChildren pre children
     | _ => [])

def walkChildren (pre : List String) : List (String × FsEntry) → List TarEntry
  | [] => []
  | (n, c) :: rest => walkEntry (pre ++ [n]) c ++ walkChildren pre rest

end

/-- Resolve a relative path (as components) inside a filesystem subtree. -/
def lookupFsPath : FsEntry → List String → Option FsEntry
  | e, [] => some e
  | .dir _ children, n :: rest =>
    match children.find? (fun c => c.1 == n) with
    | some c => lookupFsPath c.2 rest
    | none => none
  | _, _ :: _ => none

/-- The sequence of entries the populator writes on success: first the
rendered build script as "Dockerfile", then the explicit (empty)
"packages-src" directory entry, then the walked compiled-artifact subtree of
each residual package under `packages-src/<fingerprint>`. -/
def populatorEntries (render : String → List Package → String → String)
    (fsTree : Package → FsEntry) (p : PackagesImageBuilder)
    (baseImageName : String) (packages : List Package) : List TarEntry :=
  writeToTarStream (strBytes (render baseImageName packages (fissileVersionLabel p)))
      "Dockerfile" 0 0 ::
    writeToTarStream [] "packages-src" 0o755 53 ::
    packages.flatMap (fun pkg => walkEntry ["packages-src", pkg.fingerprint] (fsTree pkg))

/-- `NewDockerPopulator` (the populating closure it returns), parameterized
by the external catalog lookup, the dockerfile template rendering
(`generateDockerfile` executes the external `Dockerfile-packages` template
on base image, packages and version label), the filesystem subtree at each
package's compiled dir, and the test-only `baseImageOverride` global. The
produced value is the sequence of entries written to the tar stream. -/
def NewDockerPopulator
    (findBest : String → List String → List String → Except String (String × List String))
    (render : String → List Package → String → String)
    (fsTree : Package → FsEntry)
    (baseImageOverride : String)
    (p : PackagesImageBuilder) (roles : List Role) (forceBuildAll : Bool) :
    Except String (List TarEntry) :=
  if roles.length = 0 then .error "No roles to build"
  else
    match (if forceBuildAll then .ok (p.stemcellImageName, collectPackages roles)
           else determinePackagesLayerBaseImage findBest baseImageOverride p
             (collectPackages roles)) with
    | .error e => .error e
    | .ok (baseImageName, packages) =>
      .ok (populatorEntries render fsTree p baseImageName packages)

/-! ### Fixtures for concrete evaluations -/

/-- The builder of the spec's worked example. -/
def acmeBuilder : PackagesImageBuilder :=
  { repository := "acme", stemcellImageID := "sha:abc",
    stemcellImageName := "stem", fissileVersion := "1.2.3" }

/-- One role, one job, one package `{fp := "f1", name := "p1", hash := "h1"}`. -/
def rolesH1 : List Role := [⟨[⟨[⟨"f1", "p1", "h1"⟩]⟩]⟩]

/-- The same but with the content hash changed to `"h2"`. -/
def rolesH2 : List Role := [⟨[⟨[⟨"f1", "p1", "h2"⟩]⟩]⟩]

/-! ### Claim theorems -/

/-- C7: invoked with an empty role list, the populator fails with the usage
error "No roles to build" and writes no entry to the output tar stream. -/
theorem c7_no_roles_is_usage_error
    (findBest : String → List String → List String → Except String (String × List String))
    (render : String → List Package → String → String)
    (fsTree : Package → FsEntry) (baseImageOverride : String)
    (p : PackagesImageBuilder) (forceBuildAll : Bool) :
    NewDockerPopulator findBest render fsTree baseImageOverride p [] forceBuildAll =
      .error "No roles to build" := rfl

/-- C4: with `forceBuildAll` set and a non-empty role list, the generated
context uses the unmodified stemcell image name as base image and the
complete deduplicated package set as residual, and the result does not
depend on the catalog lookup at all. -/
theorem c4_force_build_all_uses_stemcell_and_full_set
    (findBest findBest2 : String → List String → List String → Except String (String × List String))
    (render : String → List Package → String → String)
    (fsTree : Package → FsEntry) (baseImageOverride : String)
    (p : PackagesImageBuilder) (roles : List Role) (h : roles ≠ []) :
    NewDockerPopulator findBest render fsTree baseImageOverride p roles true =
      .ok (populatorEntries render fsTree p p.stemcellImageName (collectPackages roles))
    ∧ NewDockerPopulator findBest render fsTree baseImageOverride p roles true =
      NewDockerPopulator findBest2 render fsTree baseImageOverride p roles true := by
  have hlen : ¬roles.length = 0 := fun hl => h (List.length_eq_zero.mp hl)
  have key : ∀ fb : String → List String → List String → Except String (String × List String),
      NewDockerPopulator fb render fsTree baseImageOverride p roles true =
        .ok (populatorEntries render fsTree p p.stemcellImageName (collectPackages roles)) := by
    intro fb
    unfold NewDockerPopulator
    rw [if_neg hlen]
    rfl
  exact ⟨key findBest, (key findBest).trans (key findBest2).symm⟩

/-- Witness for C4 at a concrete input: one role with no jobs, a failing
catalog, the override set; the context still uses the stemcell base and the
(empty) full package set. -/
theorem c4_force_build_all_witness :
    NewDockerPopulator (fun _ _ _ => Except.error "boom") (fun b _ _ => b)
        (fun _ => FsEntry.file 0 []) "other" acmeBuilder [Role.mk []] true =
      .ok (populatorEntries (fun b _ _ => b) (fun _ => FsEntry.file 0 []) acmeBuilder
        "stem" []) :=
  (c4_force_build_all_uses_stemcell_and_full_set (fun _ _ _ => Except.error "boom")
    (fun _ _ _ => Except.ok ("x", [])) (fun b _ _ => b) (fun _ => FsEntry.file 0 [])
    "other" acmeBuilder [Role.mk []] (List.cons_ne_nil _ _)).1

/-- C6: every successful populator invocation writes the rendered build
script first, named "Dockerfile", immediately followed by the explicit
"packages-src" directory entry — also when the residual set is empty. -/
theorem c6_context_starts_with_dockerfile_then_dir
    (findBest : String → List String → List String → Except String (String × List String))
    (render : String → List Package → String → String)
    (fsTree : Package → FsEntry) (baseImageOverride : String)
    (p : PackagesImageBuilder) (roles : List Role) (forceBuildAll : Bool)
    (entries : List TarEntry)
    (h : NewDockerPopulator findBest render fsTree baseImageOverride p roles forceBuildAll =
      .ok entries) :
    ∃ base resid,
      entries.take 2 =
        [writeToTarStream (strBytes (render base resid (fissileVersionLabel p)))
          "Dockerfile" 0 0,
         writeToTarStream [] "packages-src" 0o755 53] := by
  unfold NewDockerPopulator at h
  by_cases hr : roles.length = 0
  · rw [if_pos hr] at h
    cases h
  · rw [if_neg hr] at h
    cases hstep : (if forceBuildAll = true then
        Except.ok (p.stemcellImageName, collectPackages roles)
      else determinePackagesLayerBaseImage findBest baseImageOverride p
        (collectPackages roles)) with
    | error e => rw [hstep] at h; cases h
    | ok pair =>
      rw [hstep] at h
      obtain ⟨base, packages⟩ := pair
      cases h
      exact ⟨base, packages, rfl⟩

/-- Witness for C6: a concrete successful invocation with an empty residual
set still has the "Dockerfile" entry first and the directory entry second. -/
theorem c6_context_witness :
    (populatorEntries (fun _ _ _ => "D") (fun _ => FsEntry.file 0 []) acmeBuilder
        "stem" []).take 2 =
      [writeToTarStream (strBytes "D") "Dockerfile" 0 0,
       writeToTarStream [] "packages-src" 0o755 53] :=
  Exists.elim
    (c6_context_starts_with_dockerfile_then_dir (fun _ _ _ => Except.error "boom")
      (fun _ _ _ => "D") (fun _ => FsEntry.file 0 []) "" acmeBuilder [Role.mk []] true
      (populatorEntries (fun _ _ _ => "D") (fun _ => FsEntry.file 0 []) acmeBuilder "stem" [])
      rfl)
    (fun _b hb => Exists.elim hb (fun _r hr => hr))

/-- No-candidate helper: filtering a label list against an empty candidate
list yields the empty list. -/
theorem filter_contains_nil (ls : List String) :
    ls.filter (fun l => (([] : List String)).contains l) = [] := by
  induction ls with
  | nil => rfl
  | cons x xs ih => exact ih

/-- When every scored candidate covers no label, no best candidate exists. -/
theorem bestCandidate_none (scored : List (String × List String))
    (h : ∀ x ∈ scored, x.2 = []) : bestCandidate scored none = none := by
  induction scored with
  | nil => rfl
  | cons x xs ih =>
    have hx : x.2 = [] := h x (List.mem_cons_self x xs)
    show bestCandidate xs (match (none : Option (String × List String)) with
      | none => if 0 < x.2.length then some x else none
      | some b => if b.2.length < x.2.length then some x else none) = none
    rw [hx]
    exact ih (fun y hy => h y (List.mem_cons_of_mem x hy))

/-- With no candidate labels the spec-modelled catalog lookup returns the
base image itself and no covered labels, for every catalog content. -/
theorem findBest_no_candidates (catalog : List CatalogImage) (baseName : String)
    (mand : List String) :
    findBestImageWithLabels catalog baseName [] mand = .ok (baseName, []) := by
  unfold findBestImageWithLabels
  rw [bestCandidate_none
    (((catalog.filter (fun img => mand.all (fun l => img.labels.contains l))).map
      (fun img => (img.imageName, img.labels.filter (fun l => ([] : List String).contains l)))))
    (by
      intro x hx
      rcases List.mem_map.mp hx with ⟨img, _, rfl⟩
      exact filter_contains_nil img.labels)]

/-- C8: with zero requested packages, `determinePackagesLayerBaseImage`
returns the stemcell image itself as base and an empty residual, for every
catalog content (no test override set). -/
theorem c8_zero_packages_yields_stemcell (catalog : List CatalogImage)
    (p : PackagesImageBuilder) :
    determinePackagesLayerBaseImage (findBestImageWithLabels catalog) "" p [] =
      .ok (p.stemcellImageName, []) := by
  show (match findBestImageWithLabels catalog p.stemcellImageName []
      [fissileVersionLabel p] with
    | Except.error e => Except.error e
    | Except.ok (matchedImage, foundLabels) =>
      Except.ok (matchedImage, residualPackages [] foundLabels)) =
    Except.ok (p.stemcellImageName, ([] : List Package))
  rw [findBest_no_candidates]
  rfl

/-- C2: the spec's worked example. With repository "acme", version "1.2.3",
stemcell image ID "sha:abc" and the single package `(f1, p1, h1)`, the image
reference is `acme-role-packages:<hex SHA-1 of "1.2.3:sha:abc\0f1\0p1\0h1">`;
changing the package hash to "h2" changes the tag; identical inputs give the
identical reference. -/
theorem c2_concrete_example :
    GetPackagesLayerImageName acmeBuilder rolesH1 =
      "acme-role-packages:" ++ sha1Hex (strBytes "1.2.3:sha:abc\x00f1\x00p1\x00h1")
    ∧ GetPackagesLayerImageName acmeBuilder rolesH1 ≠
      GetPackagesLayerImageName acmeBuilder rolesH2
    ∧ GetPackagesLayerImageName acmeBuilder rolesH1 =
      GetPackagesLayerImageName acmeBuilder rolesH1 := by
  refine ⟨rfl, ?_, rfl⟩
  have h1 : GetPackagesLayerImageName acmeBuilder rolesH1 =
      "acme-role-packages:210882475c3e0ecff720163bd6d3744bb49ae683" := rfl
  have h2 : GetPackagesLayerImageName acmeBuilder rolesH2 =
      "acme-role-packages:81381703b679f374843a4dfe179cff2e16a38880" := rfl
  rw [h1, h2]
  decide

/-! ### Deduplication: the populator's first-wins loop -/

/-- The populator's dedup fold equals the recursive first-wins dedup. -/
theorem foldl_collectStep_eq (l : List Package) :
    ∀ (found : List String) (acc : List Package),
      l.foldl collectStep (found, acc) =
        (found ++ (dedupFirst l found).map Package.fingerprint,
         acc ++ dedupFirst l found) := by
  induction l with
  | nil => intro found acc; simp [dedupFirst]
  | cons q qs ih =>
    intro found acc
    rw [List.foldl_cons]
    by_cases hq : q.fingerprint ∈ found
    · rw [show collectStep (found, acc) q = (found, acc) from by simp [collectStep, hq]]
      rw [ih found acc]
      simp [dedupFirst, hq]
    · rw [show collectStep (found, acc) q = (found ++ [q.fingerprint], acc ++ [q]) from by
        simp [collectStep, hq]]
      rw [ih]
      simp [dedupFirst, hq]

/-- `collectPackages` is the first-wins dedup of the flattened package
references. -/
theorem collectPackages_eq_dedupFirst (roles : List Role) :
    collectPackages roles = dedupFirst (rolePackages roles) [] := by
  unfold collectPackages
  rw [foldl_collectStep_eq]
  simp

/-- The survivors of the first-wins dedup with a given fingerprint: none if
the fingerprint was already seen, otherwise exactly the first occurrence. -/
theorem dedupFirst_filter (fp : String) (l : List Package) :
    ∀ found : List String,
      (dedupFirst l found).filter (fun q => q.fingerprint == fp) =
        if fp ∈ found then []
        else ((l.filter (fun q => q.fingerprint == fp)).head?).toList := by
  induction l with
  | nil =>
    intro found
    by_cases h : fp ∈ found <;> simp [dedupFirst, h]
  | cons q qs ih =>
    intro found
    by_cases hq : q.fingerprint ∈ found
    · rw [show dedupFirst (q :: qs) found = dedupFirst qs found from by
        simp [dedupFirst, hq]]
      rw [ih found]
      by_cases hmatch : q.fingerprint = fp
      · have hfp : fp ∈ found := hmatch ▸ hq
        simp [hfp]
      · simp [List.filter_cons, hmatch]
    · rw [show dedupFirst (q :: qs) found =
          q :: dedupFirst qs (found ++ [q.fingerprint]) from by simp [dedupFirst, hq]]
      by_cases hmatch : q.fingerprint = fp
      · subst hmatch
        rw [List.filter_cons, if_pos (by simp)]
        rw [ih (found ++ [q.fingerprint])]
        rw [if_pos (by simp), if_neg hq]
        simp [List.filter_cons]
      · rw [List.filter_cons, if_neg (by simp [hmatch])]
        rw [ih (found ++ [q.fingerprint])]
        have hmem : (fp ∈ found ++ [q.fingerprint]) ↔ fp ∈ found := by
          simp
          intro hcontr
          exact absurd hcontr.symm hmatch
        by_cases hf : fp ∈ found
        · rw [if_pos (hmem.mpr hf), if_pos hf]
        · rw [if_neg (fun hc => hf (hmem.mp hc)), if_neg hf]
          rw [List.filter_cons, if_neg (by simp [hmatch])]

/-- C5: the package set resolved by the populator contains, for every
fingerprint, exactly the first occurrence (in role/job/package iteration
order) of a package with that fingerprint — in particular, a fingerprint
shared by several roles appears exactly once. -/
theorem c5_resolved_set_keeps_first_occurrence_once (roles : List Role) (fp : String) :
    (collectPackages roles).filter (fun q => q.fingerprint == fp) =
      (((rolePackages roles).filter (fun q => q.fingerprint == fp)).head?).toList := by
  rw [collectPackages_eq_dedupFirst, dedupFirst_filter]
  simp

/-! ### The `pkgMap` association map: keys, consistency, lookups -/

/-- Inserting preserves the keys when the key is present, else appends it. -/
theorem keys_pkgMapInsert (m : List (String × Package)) (q : Package) :
    (pkgMapInsert m q).map Prod.fst =
      if m.any (fun kv => kv.1 == q.fingerprint) then m.map Prod.fst
      else m.map Prod.fst ++ [q.fingerprint] := by
  unfold pkgMapInsert
  by_cases h : m.any (fun kv => kv.1 == q.fingerprint)
  · rw [if_pos h, if_pos h, List.map_map]
    refine List.map_congr_left ?_
    intro kv _
    by_cases hkv : (kv.1 == q.fingerprint) = true <;> simp [Function.comp, hkv]
  · rw [if_neg h, if_neg h]
    simp

/-- Inserting preserves key distinctness. -/
theorem keysNodup_pkgMapInsert (m : List (String × Package)) (q : Package)
    (h : KeysNodup m) : KeysNodup (pkgMapInsert m q) := by
  unfold KeysNodup
  rw [keys_pkgMapInsert]
  by_cases hany : m.any (fun kv => kv.1 == q.fingerprint)
  · rwa [if_pos hany]
  · rw [if_neg hany]
    rw [List.nodup_append]
    refine ⟨h, List.nodup_singleton _, ?_⟩
    intro x hx hx1
    rw [List.mem_singleton.mp hx1] at hx
    rcases List.mem_map.mp hx with ⟨kv, hkv, hkey⟩
    exact hany (List.any_eq_true.mpr ⟨kv, hkv, by simp [hkey]⟩)

/-- Inserting preserves fingerprint-consistency of the bindings. -/
theorem fpConsistent_pkgMapInsert (m : List (String × Package)) (q : Package)
    (h : FpConsistent m) : FpConsistent (pkgMapInsert m q) := by
  unfold pkgMapInsert
  by_cases hany : m.any (fun kv => kv.1 == q.fingerprint)
  · rw [if_pos hany]
    intro kv hkv
    rcases List.mem_map.mp hkv with ⟨kv0, hkv0, hrepl⟩
    by_cases h0 : kv0.1 == q.fingerprint
    · rw [if_pos h0] at hrepl
      rw [← hrepl]
      exact (beq_iff_eq.mp h0).symm
    · rw [if_neg h0] at hrepl
      rw [← hrepl]
      exact h kv0 hkv0
  · rw [if_neg hany]
    intro kv hkv
    rcases List.mem_append.mp hkv with hin | hin
    · exact h kv hin
    · rw [List.mem_singleton.mp hin]

/-- Folding inserts preserves key distinctness. -/
theorem keysNodup_foldl_insert (l : List Package) :
    ∀ m, KeysNodup m → KeysNodup (l.foldl pkgMapInsert m) := by
  induction l with
  | nil => intro m hm; exact hm
  | cons q qs ih =>
    intro m hm
    rw [List.foldl_cons]
    exact ih _ (keysNodup_pkgMapInsert m q hm)

/-- Folding inserts preserves fingerprint-consistency. -/
theorem fpConsistent_foldl_insert (l : List Package) :
    ∀ m, FpConsistent m → FpConsistent (l.foldl pkgMapInsert m) := by
  induction l with
  | nil => intro m hm; exact hm
  | cons q qs ih =>
    intro m hm
    rw [List.foldl_cons]
    exact ih _ (fpConsistent_pkgMapInsert m q hm)

theorem keysNodup_buildPkgMap (l : List Package) : KeysNodup (buildPkgMap l) :=
  keysNodup_foldl_insert l [] (by simp [KeysNodup])

theorem fpConsistent_buildPkgMap (l : List Package) : FpConsistent (buildPkgMap l) :=
  fpConsistent_foldl_insert l [] (by intro kv hkv; cases hkv)

/-- With fingerprint-consistent bindings, no binding under an absent key can
have a matching value fingerprint. -/
theorem values_filter_of_no_key (m : List (String × Package)) (fp : String)
    (hcons : FpConsistent m) (hno : ∀ kv ∈ m, kv.1 ≠ fp) :
    (m.map Prod.snd).filter (fun v => v.fingerprint == fp) = [] := by
  induction m with
  | nil => rfl
  | cons kv rest ih =>
    have h1 : ¬(kv.2.fingerprint == fp) = true := by
      rw [beq_iff_eq, hcons kv (List.mem_cons_self kv rest)]
      exact hno kv (List.mem_cons_self kv rest)
    rw [List.map_cons, List.filter_cons, if_neg h1]
    exact ih (fun x hx => hcons x (List.mem_cons_of_mem kv hx))
      (fun x hx => hno x (List.mem_cons_of_mem kv hx))

/-- In a key-distinct, fingerprint-consistent map, the values whose
fingerprint is `fp` are exactly the looked-up binding for key `fp`. -/
theorem values_filter_eq_find (m : List (String × Package)) (fp : String)
    (hnodup : KeysNodup m) (hcons : FpConsistent m) :
    (m.map Prod.snd).filter (fun v => v.fingerprint == fp) =
      ((m.find? (fun kv => kv.1 == fp)).map Prod.snd).toList := by
  induction m with
  | nil => rfl
  | cons kv rest ih =>
    have hconsTail : FpConsistent rest := fun x hx => hcons x (List.mem_cons_of_mem kv hx)
    have hnodupTail : KeysNodup rest := (List.nodup_cons.mp hnodup).2
    by_cases hk : kv.1 = fp
    · have hv : (kv.2.fingerprint == fp) = true := by
        rw [beq_iff_eq, hcons kv (List.mem_cons_self kv rest)]
        exact hk
      rw [List.map_cons, List.filter_cons, if_pos hv]
      rw [List.find?_cons_of_pos _ (by simp [hk])]
      have hrest : (rest.map Prod.snd).filter (fun v => v.fingerprint == fp) = [] := by
        refine values_filter_of_no_key rest fp hconsTail ?_
        intro x hx hxk
        exact (List.nodup_cons.mp hnodup).1 (hk ▸ hxk ▸ List.mem_map_of_mem Prod.fst hx)
      rw [hrest]
      rfl
    · have hv : ¬(kv.2.fingerprint == fp) = true := by
        rw [beq_iff_eq, hcons kv (List.mem_cons_self kv rest)]
        exact hk
      rw [List.map_cons, List.filter_cons, if_neg hv]
      rw [List.find?_cons_of_neg _ (by simp [hk])]
      exact ih hnodupTail hconsTail

/-- Looking up `fp` after a map-style insert: the inserted package if its
fingerprint is `fp`, otherwise whatever the map held before. -/
theorem find?_pkgMapInsert (m : List (String × Package)) (q : Package) (fp : String) :
    (pkgMapInsert m q).find? (fun kv => kv.1 == fp) =
      if q.fingerprint = fp then some (fp, q)
      else m.find? (fun kv => kv.1 == fp) := by
  unfold pkgMapInsert
  by_cases hany : (m.any fun kv => kv.1 == q.fingerprint) = true
  · rw [if_pos hany, List.find?_map]
    have hpred : ((fun kv : String × Package => kv.1 == fp) ∘
        (fun kv => if kv.1 == q.fingerprint then (kv.1, q) else kv)) =
        (fun kv : String × Package => kv.1 == fp) := by
      funext kv
      by_cases hkv : (kv.1 == q.fingerprint) = true <;> simp [Function.comp, hkv]
    rw [hpred]
    by_cases hq : q.fingerprint = fp
    · rw [if_pos hq]
      rcases List.any_eq_true.mp hany with ⟨kv0, hkv0, hkey⟩
      have hsome : ((m.find? fun kv => kv.1 == fp).isSome) = true :=
        List.find?_isSome.mpr ⟨kv0, hkv0, by simp [beq_iff_eq.mp hkey, hq]⟩
      rcases Option.isSome_iff_exists.mp hsome with ⟨kvf, hkvf⟩
      rw [hkvf]
      have hkf : kvf.1 = fp := by have h0 := List.find?_some hkvf; simpa using h0
      have hkfq : (kvf.1 == q.fingerprint) = true := by simp [hkf, hq]
      show some (if (kvf.1 == q.fingerprint) = true then (kvf.1, q) else kvf) = some (fp, q)
      rw [if_pos hkfq, hkf]
    · rw [if_neg hq]
      cases hfind : m.find? (fun kv => kv.1 == fp) with
      | none => rfl
      | some kvf =>
        have hkf : kvf.1 = fp := by have h0 := List.find?_some hfind; simpa using h0
        have hkfq : ¬(kvf.1 == q.fingerprint) = true := by
          simp [hkf]
          exact fun hcontr => hq hcontr.symm
        show some (if (kvf.1 == q.fingerprint) = true then (kvf.1, q) else kvf) = some kvf
        rw [if_neg hkfq]
  · rw [if_neg hany, List.find?_append]
    by_cases hq : q.fingerprint = fp
    · rw [if_pos hq]
      have hnone : m.find? (fun kv => kv.1 == fp) = none := by
        rw [List.find?_eq_none]
        intro kv hkv hcontr
        exact hany (List.any_eq_true.mpr ⟨kv, hkv,
          by simp [beq_iff_eq.mp hcontr, hq]⟩)
      rw [hnone]
      simp [List.find?, hq]
    · rw [if_neg hq]
      have hlast : ([(q.fingerprint, q)].find? fun kv => kv.1 == fp) = none := by
        have hbeq : (q.fingerprint == fp) = false := beq_eq_false_iff_ne.mpr hq
        simp [List.find?, hbeq]
      rw [hlast, Option.or_none]

/-- `getLast?` of a cons: the last of the tail if any, else the head. -/
theorem getLast?_cons_elim {α : Type} (a : α) (l : List α) :
    (a :: l).getLast? = (match l.getLast? with
      | some x => some x
      | none => some a) := by
  induction l generalizing a with
  | nil => rfl
  | cons b bs ih =>
    rw [List.getLast?_cons_cons, ih b]
    cases hbs : bs.getLast? <;> rfl

/-- The binding for `fp` after building the map from `l`: the LAST package
of `l` with fingerprint `fp` (Go map assignment overwrites). -/
theorem find?_foldl_insert (fp : String) (l : List Package) :
    ∀ m : List (String × Package),
      (l.foldl pkgMapInsert m).find? (fun kv => kv.1 == fp) =
        (match (l.filter (fun q => q.fingerprint == fp)).getLast? with
         | some x => some (fp, x)
         | none => m.find? (fun kv => kv.1 == fp)) := by
  induction l with
  | nil => intro m; rfl
  | cons q qs ih =>
    intro m
    rw [List.foldl_cons, ih (pkgMapInsert m q), find?_pkgMapInsert]
    by_cases hq : q.fingerprint = fp
    · rw [if_pos hq]
      rw [List.filter_cons, if_pos (by simp [hq]), getLast?_cons_elim]
      cases (qs.filter (fun q => q.fingerprint == fp)).getLast? <;> rfl
    · rw [if_neg hq]
      rw [List.filter_cons, if_neg (by simp [hq])]

/-- The digest-contributing packages with fingerprint `fp` are exactly the
last occurrence of `fp` in iteration order. -/
theorem digestPackages_filter (l : List Package) (fp : String) :
    (digestPackages l).filter (fun v => v.fingerprint == fp) =
      ((l.filter (fun q => q.fingerprint == fp)).getLast?).toList := by
  have hperm : ((digestPackages l).filter (fun v => v.fingerprint == fp)).Perm
      (((buildPkgMap l).map Prod.snd).filter (fun v => v.fingerprint == fp)) :=
    List.Perm.filter _ (List.perm_insertionSort pkgLE _)
  rw [values_filter_eq_find _ fp (keysNodup_buildPkgMap l) (fpConsistent_buildPkgMap l)]
    at hperm
  have hfind : (buildPkgMap l).find? (fun kv => kv.1 == fp) =
      (match (l.filter (fun q => q.fingerprint == fp)).getLast? with
       | some x => some (fp, x)
       | none => none) := by
    rw [show buildPkgMap l = l.foldl pkgMapInsert [] from rfl, find?_foldl_insert]
    cases (l.filter (fun q => q.fingerprint == fp)).getLast? <;> rfl
  rw [hfind] at hperm
  cases hlast : (l.filter (fun q => q.fingerprint == fp)).getLast? with
  | none =>
    rw [hlast] at hperm
    simp only [Option.map_none, Option.toList_none] at hperm ⊢
    exact hperm.eq_nil
  | some x =>
    rw [hlast] at hperm
    simp only [Option.map_some, Option.toList_some] at hperm ⊢
    exact List.perm_singleton.mp hperm

/-- C10: `GetPackagesLayerImageName` deduplicates by fingerprint with
last-occurrence-wins — the package with fingerprint `fp` contributing to the
digest is the LAST occurrence in role/job/package iteration order, and there
is at most one such contributor — while `NewDockerPopulator`'s collection
keeps the FIRST occurrence. -/
theorem c10_name_dedup_last_wins_populator_first_wins (roles : List Role) (fp : String) :
    ((digestPackages (rolePackages roles)).filter (fun v => v.fingerprint == fp) =
      (((rolePackages roles).filter (fun q => q.fingerprint == fp)).getLast?).toList)
    ∧ ((collectPackages roles).filter (fun v => v.fingerprint == fp) =
      (((rolePackages roles).filter (fun q => q.fingerprint == fp)).head?).toList) := by
  refine ⟨digestPackages_filter _ fp, ?_⟩
  rw [collectPackages_eq_dedupFirst, dedupFirst_filter]
  simp

/-! ### The residual computation of `determinePackagesLayerBaseImage` -/

/-- Bindings of an inserted map: old bindings or the inserted package. -/
theorem mem_pkgMapInsert (m : List (String × Package)) (q : Package) :
    ∀ kv ∈ pkgMapInsert m q, kv ∈ m ∨ kv.2 = q := by
  unfold pkgMapInsert
  by_cases hany : (m.any fun kv => kv.1 == q.fingerprint) = true
  · rw [if_pos hany]
    intro kv hkv
    rcases List.mem_map.mp hkv with ⟨kv0, hkv0, hrepl⟩
    by_cases h0 : (kv0.1 == q.fingerprint) = true
    · right; rw [← hrepl, if_pos h0]
    · left; rw [← hrepl, if_neg h0]; exact hkv0
  · rw [if_neg hany]
    intro kv hkv
    rcases List.mem_append.mp hkv with h | h
    · exact Or.inl h
    · right; rw [List.mem_singleton.mp h]

/-- Values of the built map come from the source package list. -/
theorem mem_foldl_insert (l : List Package) :
    ∀ m, ∀ kv ∈ l.foldl pkgMapInsert m, kv ∈ m ∨ kv.2 ∈ l := by
  induction l with
  | nil => intro m kv h; exact Or.inl h
  | cons q qs ih =>
    intro m kv h
    rw [List.foldl_cons] at h
    rcases ih (pkgMapInsert m q) kv h with hin | hin
    · rcases mem_pkgMapInsert m q kv hin with h1 | h1
      · exact Or.inl h1
      · right; rw [h1]; exact List.mem_cons_self q qs
    · exact Or.inr (List.mem_cons_of_mem q hin)

theorem length_pkgMapInsert (m : List (String × Package)) (q : Package) :
    (pkgMapInsert m q).length ≤ m.length + 1 := by
  unfold pkgMapInsert
  split
  · rw [List.length_map]; exact Nat.le_succ _
  · rw [List.length_append]; exact le_refl _

theorem length_foldl_insert (l : List Package) :
    ∀ m, (l.foldl pkgMapInsert m).length ≤ m.length + l.length := by
  induction l with
  | nil => intro m; exact le_refl _
  | cons q qs ih =>
    intro m
    rw [List.foldl_cons]
    calc (qs.foldl pkgMapInsert (pkgMapInsert m q)).length
        ≤ (pkgMapInsert m q).length + qs.length := ih _
      _ ≤ (m.length + 1) + qs.length :=
          Nat.add_le_add_right (length_pkgMapInsert m q) _
      _ = m.length + (q :: qs).length := by rw [List.length_cons]; omega

theorem length_buildPkgMap (l : List Package) : (buildPkgMap l).length ≤ l.length := by
  have := length_foldl_insert l []
  simpa [buildPkgMap] using this

/-- Reduction of `removeCoveredLabel` when the label is not of the two-part
`fingerprint.<fp>` shape: the map is unchanged. -/
theorem removeCoveredLabel_of_not_fingerprint (m : List (String × Package)) (label : String)
    (h : ¬ isFingerprintLabel label = true) : removeCoveredLabel m label = m := by
  unfold isFingerprintLabel at h
  unfold removeCoveredLabel
  rcases hsplit : splitOnDot label with _ | ⟨a, _ | ⟨b, _ | ⟨c, r3⟩⟩⟩
  · rfl
  · rfl
  · rw [hsplit] at h
    show (if (a == "fingerprint") = true then m.filter (fun kv => kv.1 != b) else m) = m
    rw [if_neg h]
  · rfl

/-- Each binding surviving one label-removal step was present before, and its
key is not the fingerprint the label names (when the label is two-part). -/
theorem mem_removeCoveredLabel (m : List (String × Package)) (label : String) :
    ∀ kv ∈ removeCoveredLabel m label, kv ∈ m ∧ splitOnDot label ≠ ["fingerprint", kv.1] := by
  intro kv hkv
  unfold removeCoveredLabel at hkv
  rcases hsplit : splitOnDot label with _ | ⟨a, _ | ⟨b, _ | ⟨c, r3⟩⟩⟩
  · rw [hsplit] at hkv
    exact ⟨hkv, by intro hc; cases hc⟩
  · rw [hsplit] at hkv
    refine ⟨hkv, ?_⟩
    intro hc
    injection hc with h1 h2
    cases h2
  · rw [hsplit] at hkv
    by_cases ha : (a == "fingerprint") = true
    · change kv ∈ (if (a == "fingerprint") = true then
        m.filter (fun kv => kv.1 != b) else m) at hkv
      rw [if_pos ha] at hkv
      have hmem := List.mem_filter.mp hkv
      refine ⟨hmem.1, ?_⟩
      intro hc
      injection hc with h1 h2
      injection h2 with h3 h4
      have hbne := hmem.2
      rw [← h3] at hbne
      simp at hbne
    · change kv ∈ (if (a == "fingerprint") = true then
        m.filter (fun kv => kv.1 != b) else m) at hkv
      rw [if_neg ha] at hkv
      refine ⟨hkv, ?_⟩
      intro hc
      injection hc with h1 h2
      exact ha (by rw [h1]; rfl)
  · rw [hsplit] at hkv
    refine ⟨hkv, ?_⟩
    intro hc
    injection hc with h1 h2
    injection h2 with h3 h4
    cases h4

theorem length_removeCoveredLabel (m : List (String × Package)) (label : String) :
    (removeCoveredLabel m label).length ≤ m.length := by
  unfold removeCoveredLabel
  split
  · split
    · exact List.length_filter_le _ _
    · exact le_refl _
  · exact le_refl _

theorem length_foldl_remove (labels : List String) :
    ∀ m, (labels.foldl removeCoveredLabel m).length ≤ m.length := by
  induction labels with
  | nil => intro m; exact le_refl _
  | cons lab labs ih =>
    intro m
    rw [List.foldl_cons]
    exact le_trans (ih _) (length_removeCoveredLabel m lab)

/-- Bindings surviving all removal steps were present before and match none
of the two-part fingerprint labels among the found labels. -/
theorem mem_foldl_remove (labels : List String) :
    ∀ m, ∀ kv ∈ labels.foldl removeCoveredLabel m,
      kv ∈ m ∧ ∀ label ∈ labels, splitOnDot label ≠ ["fingerprint", kv.1] := by
  induction labels with
  | nil =>
    intro m kv h
    exact ⟨h, fun label hl => absurd hl (List.not_mem_nil label)⟩
  | cons lab labs ih =>
    intro m kv h
    rw [List.foldl_cons] at h
    rcases ih (removeCoveredLabel m lab) kv h with ⟨hin, hrest⟩
    rcases mem_removeCoveredLabel m lab kv hin with ⟨hm, hlab⟩
    refine ⟨hm, ?_⟩
    intro label hl
    rcases List.mem_cons.mp hl with rfl | hl2
    · exact hlab
    · exact hrest label hl2

/-- Ill-shaped labels are ignored: only the two-part fingerprint labels
affect the removal fold. -/
theorem foldl_remove_filter (labels : List String) :
    ∀ m, labels.foldl removeCoveredLabel m =
      (labels.filter isFingerprintLabel).foldl removeCoveredLabel m := by
  induction labels with
  | nil => intro m; rfl
  | cons lab labs ih =>
    intro m
    rw [List.foldl_cons]
    by_cases hlab : isFingerprintLabel lab = true
    · rw [List.filter_cons, if_pos hlab, List.foldl_cons, ih]
    · rw [List.filter_cons, if_neg hlab, ih,
        removeCoveredLabel_of_not_fingerprint m lab hlab]

/-- C3 (amended): the residual is a subset of the requested packages and not
larger; no residual package has a fingerprint named by a TWO-PART
`fingerprint.<fp>` covered label (for a fingerprint containing a dot the
label does not split into two parts and is ignored — see the
counterexample); ill-shaped labels do not affect the residual. -/
theorem c3_amended_residual_subset_and_two_part_covered_removed
    (packages : List Package) (covered : List String) :
    (∀ q ∈ residualPackages packages covered, q ∈ packages)
    ∧ (residualPackages packages covered).length ≤ packages.length
    ∧ (∀ q ∈ residualPackages packages covered, ∀ label ∈ covered,
        splitOnDot label ≠ ["fingerprint", q.fingerprint])
    ∧ residualPackages packages covered =
        residualPackages packages (covered.filter isFingerprintLabel) := by
  refine ⟨?_, ?_, ?_, ?_⟩
  · intro q hq
    rcases List.mem_map.mp hq with ⟨kv, hkv, rfl⟩
    have h1 := (mem_foldl_remove covered (buildPkgMap packages) kv hkv).1
    rcases mem_foldl_insert packages [] kv h1 with h | h
    · cases h
    · exact h
  · unfold residualPackages
    rw [List.length_map]
    exact le_trans (length_foldl_remove covered _) (length_buildPkgMap packages)
  · intro q hq label hl
    rcases List.mem_map.mp hq with ⟨kv, hkv, rfl⟩
    have h2 := (mem_foldl_remove covered (buildPkgMap packages) kv hkv).2 label hl
    have h1 := (mem_foldl_remove covered (buildPkgMap packages) kv hkv).1
    have hcons : kv.2.fingerprint = kv.1 := fpConsistent_buildPkgMap packages kv h1
    rw [hcons]
    exact h2
  · unfold residualPackages
    rw [foldl_remove_filter]

/-- Witness for C3 (amended) at a concrete input: a package surviving an
unrelated covered label is indeed among the requested packages. -/
theorem c3_amended_witness :
    (⟨"f1", "p1", "h1"⟩ : Package) ∈ [(⟨"f1", "p1", "h1"⟩ : Package)] :=
  (c3_amended_residual_subset_and_two_part_covered_removed
    [⟨"f1", "p1", "h1"⟩] ["fingerprint.zz"]).1 ⟨"f1", "p1", "h1"⟩ (by decide)

/-- Counterexample to C3 as stated: with the single requested package of
fingerprint "a.b" and covered labels containing exactly "fingerprint.a.b",
the label splits into three parts, is ignored, and the package IS returned —
so "no returned package has a fingerprint fp such that fingerprint.<fp>
appears in the covered labels" is false on the code. -/
theorem c3_counterexample_dotted_fingerprint :
    ¬ (∀ q ∈ residualPackages [⟨"a.b", "n", "h"⟩] ["fingerprint.a.b"],
        ("fingerprint." ++ q.fingerprint) ∉ ["fingerprint.a.b"]) := by
  decide

/-! ### Permutation invariance of the image name -/

theorem keys_mono_pkgMapInsert (m : List (String × Package)) (x : Package) (fp : String)
    (h : fp ∈ m.map Prod.fst) : fp ∈ (pkgMapInsert m x).map Prod.fst := by
  rw [keys_pkgMapInsert]
  split
  · exact h
  · exact List.mem_append_left _ h

theorem keys_mono_foldl_insert (l : List Package) :
    ∀ m fp, fp ∈ m.map Prod.fst → fp ∈ (l.foldl pkgMapInsert m).map Prod.fst := by
  induction l with
  | nil => intro m fp h; exact h
  | cons x xs ih =>
    intro m fp h
    rw [List.foldl_cons]
    exact ih _ fp (keys_mono_pkgMapInsert m x fp h)

theorem keys_self_pkgMapInsert (m : List (String × Package)) (x : Package) :
    x.fingerprint ∈ (pkgMapInsert m x).map Prod.fst := by
  rw [keys_pkgMapInsert]
  by_cases hany : (m.any fun kv => kv.1 == x.fingerprint) = true
  · rw [if_pos hany]
    rcases List.any_eq_true.mp hany with ⟨kv, hkv, hk⟩
    rw [← beq_iff_eq.mp hk]
    exact List.mem_map_of_mem Prod.fst hkv
  · rw [if_neg hany]
    exact List.mem_append_right _ (List.mem_singleton.mpr rfl)

theorem fingerprint_mem_keys_foldl (l : List Package) :
    ∀ m (q : Package), q ∈ l →
      q.fingerprint ∈ (l.foldl pkgMapInsert m).map Prod.fst := by
  induction l with
  | nil => intro _ _ h; cases h
  | cons x xs ih =>
    intro m q h
    rw [List.foldl_cons]
    rcases List.mem_cons.mp h with rfl | h2
    · exact keys_mono_foldl_insert xs _ _ (keys_self_pkgMapInsert m q)
    · exact ih _ q h2

/-- The fingerprints of the map values are exactly the keys. -/
theorem values_map_fingerprint_eq_keys (l : List Package) :
    ((buildPkgMap l).map Prod.snd).map Package.fingerprint =
      (buildPkgMap l).map Prod.fst := by
  rw [List.map_map]
  exact List.map_congr_left (fun kv hkv => fpConsistent_buildPkgMap l kv hkv)

theorem values_nodup_buildPkgMap (l : List Package) :
    ((buildPkgMap l).map Prod.snd).Nodup := by
  have h1 : (((buildPkgMap l).map Prod.snd).map Package.fingerprint).Nodup := by
    rw [values_map_fingerprint_eq_keys]
    exact keysNodup_buildPkgMap l
  exact List.Nodup.of_map _ h1

/-- Under fingerprint-injectivity the deduplicated values hold the same
packages as the source list. -/
theorem mem_values_buildPkgMap (l : List Package) (hinj : FpInjective l) (v : Package) :
    v ∈ (buildPkgMap l).map Prod.snd ↔ v ∈ l := by
  constructor
  · intro hv
    rcases List.mem_map.mp hv with ⟨kv, hkv, rfl⟩
    rcases mem_foldl_insert l [] kv hkv with h | h
    · cases h
    · exact h
  · intro hv
    have hkey := fingerprint_mem_keys_foldl l [] v hv
    rcases List.mem_map.mp hkey with ⟨kv, hkv, hk⟩
    have hkv_mem : kv.2 ∈ l := by
      rcases mem_foldl_insert l [] kv hkv with h | h
      · cases h
      · exact h
    have hfp : kv.2.fingerprint = v.fingerprint := by
      rw [fpConsistent_buildPkgMap l kv hkv, hk]
    have heq : kv.2 = v := hinj kv.2 hkv_mem v hv hfp
    rw [← heq]
    exact List.mem_map_of_mem Prod.snd hkv

/-- Two fingerprint-distinct lists that are permutations of each other sort
to the same list. -/
theorem sortPackages_eq_of_perm (s1 s2 : List Package)
    (hperm : s1.Perm s2) (hnodup : (s1.map Package.fingerprint).Nodup) :
    sortPackages s1 = sortPackages s2 := by
  have hp1 : (sortPackages s1).Perm s1 := List.perm_insertionSort pkgLE s1
  have hp2 : (sortPackages s2).Perm s2 := List.perm_insertionSort pkgLE s2
  have hperm12 : (sortPackages s1).Perm (sortPackages s2) :=
    hp1.trans (hperm.trans hp2.symm)
  have hnodup1 : ((sortPackages s1).map Package.fingerprint).Nodup :=
    ((hp1.map Package.fingerprint).symm).nodup hnodup
  have hnodup2 : ((sortPackages s2).map Package.fingerprint).Nodup :=
    ((hperm12.map Package.fingerprint)).nodup hnodup1
  have hlt1 : List.Pairwise pkgLT (sortPackages s1) := by
    have hne := List.pairwise_map.mp hnodup1
    exact ((List.sorted_insertionSort pkgLE s1).and hne).imp
      (fun h => lt_of_le_of_ne h.1 h.2)
  have hlt2 : List.Pairwise pkgLT (sortPackages s2) := by
    have hne := List.pairwise_map.mp hnodup2
    exact ((List.sorted_insertionSort pkgLE s2).and hne).imp
      (fun h => lt_of_le_of_ne h.1 h.2)
  exact List.eq_of_perm_of_sorted hperm12 hlt1 hlt2

/-- C1: the image reference computed by `GetPackagesLayerImageName` is the
same for any permutation of the packages gathered from the roles (packages
with equal fingerprints being interchangeable, as the spec guarantees), and
identical inputs yield the identical reference. -/
theorem c1_image_name_permutation_invariant (p : PackagesImageBuilder)
    (roles1 roles2 : List Role)
    (hinj : FpInjective (rolePackages roles1))
    (hperm : (rolePackages roles1).Perm (rolePackages roles2)) :
    GetPackagesLayerImageName p roles1 = GetPackagesLayerImageName p roles2
    ∧ GetPackagesLayerImageName p roles1 = GetPackagesLayerImageName p roles1 := by
  refine ⟨?_, rfl⟩
  have hinj2 : FpInjective (rolePackages roles2) := by
    intro a ha b hb hfp
    exact hinj a (hperm.mem_iff.mpr ha) b (hperm.mem_iff.mpr hb) hfp
  have hvperm : ((buildPkgMap (rolePackages roles1)).map Prod.snd).Perm
      ((buildPkgMap (rolePackages roles2)).map Prod.snd) := by
    refine (List.perm_ext_iff_of_nodup (values_nodup_buildPkgMap _)
      (values_nodup_buildPkgMap _)).mpr ?_
    intro a
    rw [mem_values_buildPkgMap _ hinj, mem_values_buildPkgMap _ hinj2]
    exact hperm.mem_iff
  have hnodupfp : (((buildPkgMap (rolePackages roles1)).map Prod.snd).map
      Package.fingerprint).Nodup := by
    rw [values_map_fingerprint_eq_keys]
    exact keysNodup_buildPkgMap _
  have hsort : digestPackages (rolePackages roles1) =
      digestPackages (rolePackages roles2) :=
    sortPackages_eq_of_perm _ _ hvperm hnodupfp
  unfold GetPackagesLayerImageName
  rw [hsort]

/-- Witness for C1: two role lists referencing the same two packages in
opposite orders produce the identical image reference. -/
theorem c1_image_name_witness :
    GetPackagesLayerImageName acmeBuilder
        [⟨[⟨[⟨"f1", "p1", "h1"⟩, ⟨"f2", "p2", "h2"⟩]⟩]⟩] =
      GetPackagesLayerImageName acmeBuilder
        [⟨[⟨[⟨"f2", "p2", "h2"⟩]⟩]⟩, ⟨[⟨[⟨"f1", "p1", "h1"⟩]⟩]⟩] :=
  (c1_image_name_permutation_invariant acmeBuilder
    [⟨[⟨[⟨"f1", "p1", "h1"⟩, ⟨"f2", "p2", "h2"⟩]⟩]⟩]
    [⟨[⟨[⟨"f2", "p2", "h2"⟩]⟩]⟩, ⟨[⟨[⟨"f1", "p1", "h1"⟩]⟩]⟩]
    (by decide) (by decide)).1

/-! ### The tar walker preserves the originals -/

/-- Entries produced for one child are among the entries produced for the
whole children list. -/
theorem mem_walkChildren (pre : List String) :
    ∀ (children : List (String × FsEntry)) (n : String) (c : FsEntry),
      (n, c) ∈ children → ∀ e ∈ walkEntry (pre ++ [n]) c, e ∈ walkChildren pre children := by
  intro children
  induction children with
  | nil => intro n c h; cases h
  | cons hd tl ih =>
    obtain ⟨n2, c2⟩ := hd
    intro n c hmem e he
    rw [show walkChildren pre ((n2, c2) :: tl) =
      walkEntry (pre ++ [n2]) c2 ++ walkChildren pre tl from by rw [walkChildren]]
    rcases List.mem_cons.mp hmem with heq | h2
    · injection heq with e1 e2
      subst e1
      subst e2
      exact List.mem_append_left _ he
    · exact List.mem_append_right _ (ih n c h2 e he)

/-- Every node reachable at a relative path under the walked root yields its
tar header (under the rewritten prefix) among the walked entries. -/
theorem walkEntry_lookup (rel : List String) :
    ∀ (pre : List String) (root node : FsEntry),
      lookupFsPath root rel = some node →
      tarHeaderFor (joinPath (pre ++ rel)) node ∈ walkEntry pre root := by
  induction rel with
  | nil =>
    intro pre root node h
    have hroot : root = node := by
      cases root with
      | file m c => exact Option.some.inj h
      | dir m c => exact Option.some.inj h
      | symlink m t => exact Option.some.inj h
    subst hroot
    rw [List.append_nil]
    cases root with
    | file m c => exact List.mem_cons_self _ _
    | dir m c => exact List.mem_cons_self _ _
    | symlink m t => exact List.mem_cons_self _ _
  | cons n rest ih =>
    intro pre root node h
    cases root with
    | file mode content => exact absurd h (by simp [lookupFsPath])
    | symlink mode target => exact absurd h (by simp [lookupFsPath])
    | dir mode children =>
      cases hfind : children.find? (fun c => c.1 == n) with
      | none =>
        rw [show lookupFsPath (FsEntry.dir mode children) (n :: rest) =
          (match children.find? (fun c => c.1 == n) with
           | some c => lookupFsPath c.2 rest
           | none => none) from by rw [lookupFsPath], hfind] at h
        cases h
      | some c =>
        rw [show lookupFsPath (FsEntry.dir mode children) (n :: rest) =
          (match children.find? (fun c => c.1 == n) with
           | some c => lookupFsPath c.2 rest
           | none => none) from by rw [lookupFsPath], hfind] at h
        have hkey : c.1 = n := by
          have h0 := List.find?_some hfind
          simpa using h0
        have hmem : (n, c.2) ∈ children := by
          have := List.mem_of_find?_eq_some hfind
          rwa [show (n, c.2) = c from by rw [← hkey]] 
        have hrec := ih (pre ++ [n]) c.2 node h
        rw [List.append_assoc] at hrec
        rw [show walkEntry pre (FsEntry.dir mode children) =
          tarHeaderFor (joinPath pre) (FsEntry.dir mode children) ::
            walkChildren pre children from by rw [walkEntry]]
        exact List.mem_cons_of_mem _
          (mem_walkChildren pre children n c.2 hmem _ hrec)

/-- C9: every node of a residual package's compiled-artifact subtree is
copied into the archive under the rewritten prefix
`packages-src/<fingerprint>/<relative path>`, preserving regular-file bytes,
the reported mode/size/type, and symlink targets. -/
theorem c9_walker_preserves_originals (fp : String) (root node : FsEntry)
    (rel : List String) (h : lookupFsPath root rel = some node) :
    ∃ entry ∈ walkEntry ["packages-src", fp] root,
      entry.name = joinPath (["packages-src", fp] ++ rel)
      ∧ (∀ mode bytes, node = FsEntry.file mode bytes →
          entry.mode = mode ∧ entry.typeflag = 48 ∧ entry.size = bytes.length
            ∧ entry.content = bytes)
      ∧ (∀ mode children, node = FsEntry.dir mode children →
          entry.mode = mode ∧ entry.typeflag = 53)
      ∧ (∀ mode target, node = FsEntry.symlink mode target →
          entry.mode = mode ∧ entry.typeflag = 50 ∧ entry.linkname = target) := by
  refine ⟨tarHeaderFor (joinPath (["packages-src", fp] ++ rel)) node,
    walkEntry_lookup rel ["packages-src", fp] root node h, ?_, ?_, ?_, ?_⟩
  · cases node <;> rfl
  · intro mode bytes hnode
    subst hnode
    exact ⟨rfl, rfl, rfl, rfl⟩
  · intro mode children hnode
    subst hnode
    exact ⟨rfl, rfl⟩
  · intro mode target hnode
    subst hnode
    exact ⟨rfl, rfl, rfl⟩

/-- Witness for C9: in a concrete two-entry subtree the file "bin" appears in
the archive as `packages-src/f1/bin` with its bytes, mode, size and type. -/
theorem c9_walker_witness :
    (walkEntry ["packages-src", "f1"]
        (FsEntry.dir 493 [("bin", FsEntry.file 420 [104, 105]),
          ("lnk", FsEntry.symlink 511 "bin")])).any
      (fun e => e.name == "packages-src/f1/bin" && e.mode == 420 &&
        e.typeflag == 48 && e.size == 2 &&
        decide (e.content = [104, 105])) = true := by
  have h := c9_walker_preserves_originals "f1"
    (FsEntry.dir 493 [("bin", FsEntry.file 420 [104, 105]),
      ("lnk", FsEntry.symlink 511 "bin")])
    (FsEntry.file 420 [104, 105]) ["bin"] rfl
  rcases h with ⟨entry, hmem, hname, hfile, _, _⟩
  rcases hfile 420 [104, 105] rfl with ⟨h1, h2, h3, h4⟩
  refine List.any_eq_true.mpr ⟨entry, hmem, ?_⟩
  rw [hname, h1, h2, h3, h4]
  decide

end FissileBuilder
